import Mathlib

/-
Verification of the audiopipe timeline-fusion core.

Shallow embedding of the pure fusion logic of the repository:
  pipeline.py    : simple_speaker_mapping, chop_audio, merge_chunk_outputs,
                   the chopped-mode branch of main
  diarize.py     : merge_continuous_fragments
  process_transcript.py : consolidate_segments
  dem.py         : recombine_stems, combine_with_pydub

Times are modelled as rationals, Python strings as Lean strings, Python
lists as Lean lists, and a caught Python exception as an Option / Except
value.  The stable Python list sort is modelled by insertion sort, which
computes the same (stable) result.
-/

namespace AudioPipe

/-- A diarization segment as produced by diarize.py: a dict with keys
speaker, start, end.  The field stop embeds the key named end. -/
structure DiarSeg where
  speaker : String
  start : ℚ
  stop : ℚ
deriving DecidableEq, Repr

/-- A Whisper transcription chunk, a dict with keys timestamp and text.
The value timestamp = none models a chunk whose timestamp key is missing
or malformed; the inner options model null boundaries. -/
structure WhisperChunk where
  timestamp : Option (Option ℚ × Option ℚ)
  text : String
deriving DecidableEq, Repr

/-- A transcript segment, a dict with keys text, start, end, speaker:
the output unit of simple_speaker_mapping, and the input and output unit
of merge_chunk_outputs and consolidate_segments.  The field stop embeds
the key named end. -/
structure Seg where
  text : String
  start : ℚ
  stop : ℚ
  speaker : String
deriving DecidableEq, Repr

/-- An audio chunk descriptor from chop_audio (the path field, a file
name, is not modelled). -/
structure ChunkInfo where
  start_time : ℚ
  end_time : ℚ
  index : ℕ
deriving DecidableEq, Repr

/-- Python str.strip(): drop leading and trailing whitespace. -/
def pyStrip (s : String) : String :=
  String.mk (((s.data.dropWhile Char.isWhitespace).reverse.dropWhile
    Char.isWhitespace).reverse)

/-- Floor of a rational, computed on the numerator and denominator. -/
def ratFloor (q : ℚ) : ℤ := Int.fdiv q.num (q.den : ℤ)

/-- Python round() to the nearest integer, ties to even. -/
def pyRoundInt (q : ℚ) : ℤ :=
  let f := ratFloor q
  if q - (f : ℚ) < 1 / 2 then f
  else if (1 / 2 : ℚ) < q - (f : ℚ) then f + 1
  else if f % 2 = 0 then f else f + 1

/-- Python round(x, 3), used on emitted start and end times. -/
def pyRound3 (q : ℚ) : ℚ := (pyRoundInt (q * 1000) : ℚ) / 1000

/-- Ordering of transcript segments by the start field, the key of the
Python sorts in merge_chunk_outputs and pipeline main. -/
def segStartLE (a b : Seg) : Prop := a.start ≤ b.start

instance : DecidableRel segStartLE := fun a b =>
  inferInstanceAs (Decidable (a.start ≤ b.start))

instance : IsTotal Seg segStartLE := ⟨fun a b => le_total a.start b.start⟩

instance : IsTrans Seg segStartLE := ⟨fun _ _ _ h1 h2 => le_trans h1 h2⟩

/-- Ordering of diarization segments by the start field. -/
def diarStartLE (a b : DiarSeg) : Prop := a.start ≤ b.start

instance : DecidableRel diarStartLE := fun a b =>
  inferInstanceAs (Decidable (a.start ≤ b.start))

instance : IsTotal DiarSeg diarStartLE := ⟨fun a b => le_total a.start b.start⟩

instance : IsTrans DiarSeg diarStartLE := ⟨fun _ _ _ h1 h2 => le_trans h1 h2⟩

/-- The stable sort by start applied to transcript segments (Python
list.sort(key=lambda x: x["start"])). -/
def sortSegs (l : List Seg) : List Seg := List.insertionSort segStartLE l

/-- The stable sort by start applied to diarization segments. -/
def sortDiar (l : List DiarSeg) : List DiarSeg := List.insertionSort diarStartLE l

/- ---------------------------------------------------------------------
dem.py : recombine_stems and combine_with_pydub
--------------------------------------------------------------------- -/

/-- The two normal-return outcomes of combine_with_pydub: either an audio
file of the given length was exported, or the routine printed the message
about no valid audio and returned None. -/
inductive PydubOutcome
  | exported (lengthMs : ℕ)
  | noValidAudio
deriving DecidableEq, Repr

/-- One iteration of the part loop of combine_with_pydub: a part that
fails to load is skipped (its exception is caught and printed), an empty
part is skipped, and any other part extends the running combined audio. -/
def addPart (acc : ℕ) (p : Option ℕ) : ℕ :=
  match p with
  | none => acc
  | some 0 => acc
  | some n => acc + n

/-- combine_with_pydub from dem.py.  A part is modelled by the result of
AudioSegment.from_file on it: none when loading raises (the exception is
caught, printed and the part skipped), some n for audio of length n
milliseconds.  The function is embedded into Except so that an uncaught
Python exception would be an error value; the source raises on no code
path, so only ok values occur. -/
def combine_with_pydub (parts : List (Option ℕ)) : Except String PydubOutcome :=
  let combined := parts.foldl addPart 0
  if combined = 0 then Except.ok PydubOutcome.noValidAudio
  else Except.ok (PydubOutcome.exported combined)

/-- The possible outcomes of recombine_stems. -/
inductive RecombineOutcome
  | noParts
  | viaFfmpeg (sizeBytes : ℕ)
  | viaPydub (r : Except String PydubOutcome)
deriving Repr

/-- recombine_stems from dem.py.  The glob result is the parts list; the
external ffmpeg concat run is an oracle argument: ok with the output file
size, or error when subprocess.run raises CalledProcessError.  On ffmpeg
failure the source falls back to combine_with_pydub.  (On the ffmpeg
success path the source only prints a warning for outputs under 100
bytes, which does not change the outcome.) -/
def recombine_stems (parts : List (Option ℕ)) (ffmpegRun : Except Unit ℕ) :
    RecombineOutcome :=
  if parts.isEmpty then RecombineOutcome.noParts
  else
    match ffmpegRun with
    | Except.ok size => RecombineOutcome.viaFfmpeg size
    | Except.error _ => RecombineOutcome.viaPydub (combine_with_pydub parts)

/- ---------------------------------------------------------------------
pipeline.py : simple_speaker_mapping
--------------------------------------------------------------------- -/

/-- The overlap duration computed inside the first loop of
simple_speaker_mapping: min(chunk_end, diar_end) - max(chunk_start,
diar_start).  The loop uses it only after checking it is positive. -/
def ovDur (cs ce : ℚ) (d : DiarSeg) : ℚ := min ce d.stop - max cs d.start

/-- Center of a diarization segment, (start + end) / 2. -/
def segCenter (d : DiarSeg) : ℚ := (d.start + d.stop) / 2

/-- Distance between the chunk center and a diarization segment center,
as computed in the fallback loop of simple_speaker_mapping. -/
def centerDist (cs ce : ℚ) (d : DiarSeg) : ℚ :=
  |(cs + ce) / 2 - segCenter d|

/-- The first loop of simple_speaker_mapping: running best segment and
max_overlap, updated when overlap_start < overlap_end and the overlap
duration strictly exceeds the maximum so far.  The source keeps only the
speaker string of the best segment; the whole segment is carried here and
projected to its speaker where the source reads the variable. -/
def overlapGo (cs ce : ℚ) (best : Option DiarSeg) (maxOv : ℚ) :
    List DiarSeg → Option DiarSeg × ℚ
  | [] => (best, maxOv)
  | d :: rest =>
      if max cs d.start < min ce d.stop then
        if maxOv < min ce d.stop - max cs d.start then
          overlapGo cs ce (some d) (min ce d.stop - max cs d.start) rest
        else overlapGo cs ce best maxOv rest
      else overlapGo cs ce best maxOv rest

/-- The fallback loop of simple_speaker_mapping: running best segment and
min_distance, starting from float(inf) (modelled as none), updated on a
strictly smaller center distance. -/
def fallbackGo (cs ce : ℚ) (best : Option DiarSeg) (minD : Option ℚ) :
    List DiarSeg → Option DiarSeg × Option ℚ
  | [] => (best, minD)
  | d :: rest =>
      match minD with
      | none => fallbackGo cs ce (some d) (some (centerDist cs ce d)) rest
      | some m =>
          if centerDist cs ce d < m then
            fallbackGo cs ce (some d) (some (centerDist cs ce d)) rest
          else fallbackGo cs ce best minD rest

/-- Python truthiness test applied to the best_speaker variable: None and
the empty string are falsy. -/
def falsySpeaker : Option String → Bool
  | none => true
  | some s => s == ""

/-- The per-chunk speaker selection of simple_speaker_mapping: the
overlap loop, then, when best_speaker is falsy, the fallback loop (which
leaves best_speaker unchanged when the diarization list is empty). -/
def bestSpeakerFor (cs ce : ℚ) (segs : List DiarSeg) : Option String :=
  let b1 := (overlapGo cs ce none 0 segs).1.map DiarSeg.speaker
  if falsySpeaker b1 then
    match (fallbackGo cs ce none none segs).1 with
    | some d => some d.speaker
    | none => b1
  else b1

/-- The body of the chunk loop of simple_speaker_mapping: skip a chunk
with a missing or null timestamp, skip a chunk whose stripped text is
empty, select a speaker, and emit the mapped segment only when the
selected speaker is truthy, rounding start and end to 3 decimals. -/
def mapChunk (segs : List DiarSeg) (c : WhisperChunk) : Option Seg :=
  match c.timestamp with
  | some (some cs, some ce) =>
      if pyStrip c.text = "" then none
      else
        let b := bestSpeakerFor cs ce segs
        if falsySpeaker b then none
        else
          match b with
          | some sp =>
              some { text := pyStrip c.text, start := pyRound3 cs,
                     stop := pyRound3 ce, speaker := sp }
          | none => none
  | _ => none

/-- simple_speaker_mapping from pipeline.py: map each Whisper chunk to at
most one attributed segment, in input order. -/
def simple_speaker_mapping (chunks : List WhisperChunk)
    (segs : List DiarSeg) : List Seg :=
  chunks.filterMap (mapChunk segs)

/- ---------------------------------------------------------------------
pipeline.py : chop_audio and merge_chunk_outputs
--------------------------------------------------------------------- -/

/-- Python range(0, stop, step) for positive step: the multiples of step
below stop, in order. -/
def pyRangeStep (stop step : ℕ) : List ℕ :=
  (List.range ((stop + step - 1) / step)).map (fun k => k * step)

/-- chop_audio from pipeline.py.  The audio is represented by its length
in milliseconds (pydub len(audio)); chunkDuration is the chunk duration
in seconds (default 900 at the call site).  Each chunk descriptor records
start_time = i / 1000, end_time = min((i + chunk ms) / 1000, total
duration) and index = i / chunk ms, as in the source. -/
def chop_audio (lenMs : ℕ) (chunkDuration : ℕ) : List ChunkInfo :=
  (pyRangeStep lenMs (chunkDuration * 1000)).map (fun (i : ℕ) =>
    { start_time := (i : ℚ) / 1000
      end_time := min (((i + chunkDuration * 1000 : ℕ) : ℚ) / 1000)
        ((lenMs : ℚ) / 1000)
      index := i / (chunkDuration * 1000) })

/-- The per-segment offset adjustment of merge_chunk_outputs: both start
and end are increased by the chunk start_time. -/
def shiftSeg (off : ℚ) (s : Seg) : Seg :=
  { s with start := s.start + off, stop := s.stop + off }

/-- merge_chunk_outputs from pipeline.py: shift every segment of every
chunk by the chunk start offset, concatenate in input order, and apply
the stable sort by start. -/
def merge_chunk_outputs (chunk_results : List (ChunkInfo × List Seg)) :
    List Seg :=
  sortSegs (chunk_results.flatMap (fun p => p.2.map (shiftSeg p.1.start_time)))

/-- The chopped-mode branch of main in pipeline.py.  The per-chunk
sub-pipeline (demucs, diarization, whisper and speaker mapping on one
chunk file) is an oracle argument; a raised per-chunk exception is a none
result, caught by the try/except of the loop.  After the loop the run
raises when no chunk succeeded, and otherwise merges the successful chunk
outputs. -/
def main_chopped (chunks : List ChunkInfo)
    (proc : ChunkInfo → Option (List Seg)) : Except String (List Seg) :=
  let chunk_results :=
    chunks.filterMap (fun ci => (proc ci).map (fun segs => (ci, segs)))
  match chunk_results with
  | [] => Except.error "No chunks were successfully processed"
  | _ => Except.ok (merge_chunk_outputs chunk_results)

/- ---------------------------------------------------------------------
diarize.py : merge_continuous_fragments
--------------------------------------------------------------------- -/

/-- One insertion into the dict segments_by_speaker: append to the list
of an existing key, or add a new key at the end (CPython dicts preserve
insertion order). -/
def updateGroup (s : DiarSeg) : List (String × List DiarSeg) →
    List (String × List DiarSeg)
  | [] => [(s.speaker, [s])]
  | (k, v) :: rest =>
      if k = s.speaker then (k, v ++ [s]) :: rest
      else (k, v) :: updateGroup s rest

/-- The grouping loop of merge_continuous_fragments: fold the segments,
in order, into the speaker-keyed dict. -/
def groupBySpeaker (segs : List DiarSeg) : List (String × List DiarSeg) :=
  segs.foldl (fun acc s => updateGroup s acc) []

/-- The inner merge loop of merge_continuous_fragments on one speaker
group: merge the next segment into the running one when the gap
next.start - current.end is at most 2 seconds (extending the end),
otherwise close the running segment. -/
def mergeRun : DiarSeg → List DiarSeg → List DiarSeg
  | cur, [] => [cur]
  | cur, n :: rest =>
      if n.start - cur.stop ≤ 2 then mergeRun { cur with stop := n.stop } rest
      else cur :: mergeRun n rest

/-- The merge loop applied to one (possibly empty) speaker group. -/
def mergeGroup : List DiarSeg → List DiarSeg
  | [] => []
  | s :: rest => mergeRun s rest

/-- merge_continuous_fragments from diarize.py: return the empty input
unchanged, otherwise group by speaker in first-occurrence order, sort
each group by start, merge each group, concatenate the merged groups in
dict order and sort the result by start. -/
def merge_continuous_fragments (segments : List DiarSeg) : List DiarSeg :=
  match segments with
  | [] => []
  | _ => sortDiar ((groupBySpeaker segments).flatMap
      (fun g => mergeGroup (sortDiar g.2)))

/- ---------------------------------------------------------------------
process_transcript.py : consolidate_segments
--------------------------------------------------------------------- -/

/-- The loop of consolidate_segments after the first segment has
initialized the current utterance: close the current utterance and start
a new one when the speaker changes or the gap start - current_end
exceeds max_gap, otherwise append the stripped text and extend the end.
The closed utterance text is the space-join of the collected texts. -/
def consolidateGo (maxGap : ℚ) (spk : String) (texts : List String)
    (st en : ℚ) : List Seg → List Seg
  | [] => [{ text := String.intercalate " " texts, start := st, stop := en,
             speaker := spk }]
  | s :: rest =>
      if s.speaker ≠ spk ∨ maxGap < s.start - en then
        { text := String.intercalate " " texts, start := st, stop := en,
          speaker := spk }
          :: consolidateGo maxGap s.speaker [pyStrip s.text] s.start s.stop rest
      else consolidateGo maxGap spk (texts ++ [pyStrip s.text]) st s.stop rest

/-- consolidate_segments from process_transcript.py (max_gap defaults to
3.0 at the call site). -/
def consolidate_segments (segments : List Seg) (maxGap : ℚ) : List Seg :=
  match segments with
  | [] => []
  | s :: rest => consolidateGo maxGap s.speaker [pyStrip s.text] s.start s.stop rest

/- ---------------------------------------------------------------------
Helper lemmas
--------------------------------------------------------------------- -/

lemma sortSegs_perm (l : List Seg) : (sortSegs l).Perm l :=
  List.perm_insertionSort segStartLE l

lemma sortSegs_sorted (l : List Seg) : List.Sorted segStartLE (sortSegs l) :=
  List.sorted_insertionSort segStartLE l

lemma sortDiar_perm (l : List DiarSeg) : (sortDiar l).Perm l :=
  List.perm_insertionSort diarStartLE l

lemma sortDiar_sorted (l : List DiarSeg) : List.Sorted diarStartLE (sortDiar l) :=
  List.sorted_insertionSort diarStartLE l

lemma addPart_foldl_eq_zero (parts : List (Option ℕ)) :
    ∀ acc : ℕ, parts.foldl addPart acc = 0 ↔
      acc = 0 ∧ ∀ p ∈ parts, p.getD 0 = 0 := by
  induction parts with
  | nil => intro acc; simp
  | cons p rest ih =>
      intro acc
      rw [List.foldl_cons, ih]
      constructor
      · rintro ⟨hstep, hall⟩
        rcases p with _ | n
        · exact ⟨hstep, by simpa using hall⟩
        · rcases n with _ | n
          · exact ⟨hstep, by simpa using hall⟩
          · simp [addPart] at hstep
      · rintro ⟨hacc, hall⟩
        subst hacc
        refine ⟨?_, fun q hq => hall q (List.mem_cons_of_mem _ hq)⟩
        have hp := hall p (List.mem_cons_self _ _)
        rcases p with _ | n
        · rfl
        · simp at hp
          subst hp
          rfl

/-- The speaker selected by the overlap loop comes from the running best
or from the scanned list. -/
lemma overlapGo_fst_eq_some (cs ce : ℚ) :
    ∀ (segs : List DiarSeg) (b : Option DiarSeg) (v : ℚ) (d : DiarSeg),
      (overlapGo cs ce b v segs).1 = some d → b = some d ∨ d ∈ segs := by
  intro segs
  induction segs with
  | nil => intro b v d h; exact Or.inl h
  | cons x rest ih =>
      intro b v d h
      rw [overlapGo] at h
      split_ifs at h with h1 h2
      · rcases ih _ _ _ h with h3 | h3
        · exact Or.inr (by simp [← Option.some_inj.mp h3, List.mem_cons])
        · exact Or.inr (List.mem_cons_of_mem _ h3)
      · rcases ih _ _ _ h with h3 | h3
        · exact Or.inl h3
        · exact Or.inr (List.mem_cons_of_mem _ h3)
      · rcases ih _ _ _ h with h3 | h3
        · exact Or.inl h3
        · exact Or.inr (List.mem_cons_of_mem _ h3)

/-- The segment selected by the fallback loop comes from the running best
or from the scanned list. -/
lemma fallbackGo_fst_eq_some (cs ce : ℚ) :
    ∀ (segs : List DiarSeg) (b : Option DiarSeg) (m : Option ℚ) (d : DiarSeg),
      (fallbackGo cs ce b m segs).1 = some d → b = some d ∨ d ∈ segs := by
  intro segs
  induction segs with
  | nil => intro b m d h; exact Or.inl h
  | cons x rest ih =>
      intro b m d h
      rcases m with _ | mv
      · rw [fallbackGo] at h
        rcases ih _ _ _ h with h3 | h3
        · exact Or.inr (by simp [← Option.some_inj.mp h3, List.mem_cons])
        · exact Or.inr (List.mem_cons_of_mem _ h3)
      · rw [fallbackGo] at h
        split_ifs at h with h1
        · rcases ih _ _ _ h with h3 | h3
          · exact Or.inr (by simp [← Option.some_inj.mp h3, List.mem_cons])
          · exact Or.inr (List.mem_cons_of_mem _ h3)
        · rcases ih _ _ _ h with h3 | h3
          · exact Or.inl h3
          · exact Or.inr (List.mem_cons_of_mem _ h3)

/-- A selected speaker is the speaker of some input diarization segment. -/
lemma bestSpeakerFor_mem (cs ce : ℚ) (segs : List DiarSeg) (sp : String)
    (h : bestSpeakerFor cs ce segs = some sp) : ∃ d ∈ segs, sp = d.speaker := by
  rw [bestSpeakerFor] at h
  split_ifs at h with h1
  · rcases h2 : (fallbackGo cs ce none none segs).1 with _ | d
    · rw [h2] at h
      rcases h3 : (overlapGo cs ce none 0 segs).1 with _ | d0
      · rw [h3] at h; simp at h
      · rw [h3] at h
        simp only [Option.map_some'] at h
        rcases overlapGo_fst_eq_some cs ce segs none 0 d0 h3 with h4 | h4
        · exact absurd h4 (by simp)
        · exact ⟨d0, h4, (Option.some_inj.mp h).symm⟩
    · rw [h2] at h
      rcases fallbackGo_fst_eq_some cs ce segs none none d h2 with h4 | h4
      · exact absurd h4 (by simp)
      · exact ⟨d, h4, (Option.some_inj.mp h).symm⟩
  · rcases h3 : (overlapGo cs ce none 0 segs).1 with _ | d0
    · rw [h3] at h; simp at h
    · rw [h3] at h
      simp only [Option.map_some'] at h
      rcases overlapGo_fst_eq_some cs ce segs none 0 d0 h3 with h4 | h4
      · exact absurd h4 (by simp)
      · exact ⟨d0, h4, (Option.some_inj.mp h).symm⟩

/-- With an empty diarization list, no speaker is ever selected. -/
lemma bestSpeakerFor_nil (cs ce : ℚ) : bestSpeakerFor cs ce [] = none := rfl

/-- Unfolding of one step of the overlap loop: with a non-negative
running maximum, the two source conditions (positive overlap, overlap
strictly above the maximum) collapse to one comparison against ovDur. -/
lemma overlapGo_cons (cs ce : ℚ) (b : Option DiarSeg) (v : ℚ) (hv : 0 ≤ v)
    (d : DiarSeg) (rest : List DiarSeg) :
    overlapGo cs ce b v (d :: rest) =
      if v < ovDur cs ce d then overlapGo cs ce (some d) (ovDur cs ce d) rest
      else overlapGo cs ce b v rest := by
  rw [overlapGo]
  by_cases h1 : max cs d.start < min ce d.stop
  · rw [if_pos h1]
    by_cases h2 : v < min ce d.stop - max cs d.start
    · rw [if_pos h2, if_pos (show v < ovDur cs ce d from h2)]
      rfl
    · rw [if_neg h2, if_neg (show ¬v < ovDur cs ce d from h2)]
  · rw [if_neg h1]
    have hne : ¬v < ovDur cs ce d := by
      rw [ovDur]
      intro hlt
      exact h1 (by linarith)
    rw [if_neg hne]

/-- The overlap loop either leaves the accumulator unchanged (when no
scanned segment strictly beats the running maximum) or returns the first
segment attaining the maximum overlap; on a start-sorted list that first
segment has the earliest start among the maxima. -/
lemma overlapGo_spec (cs ce : ℚ) :
    ∀ (segs : List DiarSeg) (b : Option DiarSeg) (v : ℚ), 0 ≤ v →
      List.Sorted diarStartLE segs →
      (overlapGo cs ce b v segs = (b, v) ∧ ∀ d ∈ segs, ovDur cs ce d ≤ v) ∨
      (∃ d ∈ segs, overlapGo cs ce b v segs = (some d, ovDur cs ce d) ∧
        v < ovDur cs ce d ∧
        (∀ t ∈ segs, ovDur cs ce t ≤ ovDur cs ce d) ∧
        (∀ t ∈ segs, ovDur cs ce t = ovDur cs ce d → d.start ≤ t.start)) := by
  intro segs
  induction segs with
  | nil => intro b v hv _; exact Or.inl ⟨rfl, by simp⟩
  | cons d rest ih =>
      intro b v hv hsorted
      obtain ⟨hhd, htl⟩ := List.sorted_cons.mp hsorted
      rw [overlapGo_cons cs ce b v hv d rest]
      by_cases hlt : v < ovDur cs ce d
      · rw [if_pos hlt]
        have hv2 : 0 ≤ ovDur cs ce d := le_of_lt (lt_of_le_of_lt hv hlt)
        rcases ih (some d) (ovDur cs ce d) hv2 htl with
          ⟨heq, hall⟩ | ⟨e, he, heq, hlt2, hmax, hfirst⟩
        · refine Or.inr ⟨d, List.mem_cons_self d rest, heq, hlt, ?_, ?_⟩
          · intro t ht
            rcases List.mem_cons.mp ht with rfl | ht2
            · exact le_refl _
            · exact hall t ht2
          · intro t ht _
            rcases List.mem_cons.mp ht with rfl | ht2
            · exact le_refl _
            · exact hhd t ht2
        · refine Or.inr ⟨e, List.mem_cons_of_mem d he, heq,
            lt_trans hlt hlt2, ?_, ?_⟩
          · intro t ht
            rcases List.mem_cons.mp ht with rfl | ht2
            · exact le_of_lt hlt2
            · exact hmax t ht2
          · intro t ht htv
            rcases List.mem_cons.mp ht with rfl | ht2
            · exact absurd htv (ne_of_lt hlt2)
            · exact hfirst t ht2 htv
      · rw [if_neg hlt]
        push_neg at hlt
        rcases ih b v hv htl with
          ⟨heq, hall⟩ | ⟨e, he, heq, hlt2, hmax, hfirst⟩
        · refine Or.inl ⟨heq, ?_⟩
          intro t ht
          rcases List.mem_cons.mp ht with rfl | ht2
          · exact hlt
          · exact hall t ht2
        · refine Or.inr ⟨e, List.mem_cons_of_mem d he, heq, hlt2, ?_, ?_⟩
          · intro t ht
            rcases List.mem_cons.mp ht with rfl | ht2
            · exact le_trans hlt (le_of_lt hlt2)
            · exact hmax t ht2
          · intro t ht htv
            rcases List.mem_cons.mp ht with rfl | ht2
            · exact absurd htv (ne_of_lt (lt_of_le_of_lt hlt hlt2))
            · exact hfirst t ht2 htv

/-- The fallback loop with an already-initialized accumulator: it either
keeps the running best (when nothing scanned is strictly closer) or
returns the first strictly closer segment, which on a start-sorted list
has the earliest start among the minima. -/
lemma fallbackGo_spec_some (cs ce : ℚ) :
    ∀ (segs : List DiarSeg) (b : DiarSeg), List.Sorted diarStartLE segs →
      ((fallbackGo cs ce (some b) (some (centerDist cs ce b)) segs).1 = some b ∧
        ∀ t ∈ segs, centerDist cs ce b ≤ centerDist cs ce t) ∨
      (∃ d ∈ segs,
        (fallbackGo cs ce (some b) (some (centerDist cs ce b)) segs).1 = some d ∧
        centerDist cs ce d < centerDist cs ce b ∧
        (∀ t ∈ segs, centerDist cs ce d ≤ centerDist cs ce t) ∧
        (∀ t ∈ segs, centerDist cs ce t = centerDist cs ce d → d.start ≤ t.start)) := by
  intro segs
  induction segs with
  | nil => intro b _; exact Or.inl ⟨rfl, by simp⟩
  | cons d rest ih =>
      intro b hsorted
      obtain ⟨hhd, htl⟩ := List.sorted_cons.mp hsorted
      rw [fallbackGo]
      by_cases hlt : centerDist cs ce d < centerDist cs ce b
      · rw [if_pos hlt]
        rcases ih d htl with ⟨heq, hall⟩ | ⟨e, he, heq, hlt2, hmin, hfirst⟩
        · refine Or.inr ⟨d, List.mem_cons_self d rest, heq, hlt, ?_, ?_⟩
          · intro t ht
            rcases List.mem_cons.mp ht with rfl | ht2
            · exact le_refl _
            · exact hall t ht2
          · intro t ht _
            rcases List.mem_cons.mp ht with rfl | ht2
            · exact le_refl _
            · exact hhd t ht2
        · refine Or.inr ⟨e, List.mem_cons_of_mem d he, heq,
            lt_trans hlt2 hlt, ?_, ?_⟩
          · intro t ht
            rcases List.mem_cons.mp ht with rfl | ht2
            · exact le_of_lt hlt2
            · exact hmin t ht2
          · intro t ht htv
            rcases List.mem_cons.mp ht with rfl | ht2
            · exact absurd htv (ne_of_gt hlt2)
            · exact hfirst t ht2 htv
      · rw [if_neg hlt]
        push_neg at hlt
        rcases ih b htl with ⟨heq, hall⟩ | ⟨e, he, heq, hlt2, hmin, hfirst⟩
        · refine Or.inl ⟨heq, ?_⟩
          intro t ht
          rcases List.mem_cons.mp ht with rfl | ht2
          · exact hlt
          · exact hall t ht2
        · refine Or.inr ⟨e, List.mem_cons_of_mem d he, heq, hlt2, ?_, ?_⟩
          · intro t ht
            rcases List.mem_cons.mp ht with rfl | ht2
            · exact le_trans (le_of_lt hlt2) hlt
            · exact hmin t ht2
          · intro t ht htv
            rcases List.mem_cons.mp ht with rfl | ht2
            · exact absurd htv (ne_of_gt (lt_of_lt_of_le hlt2 hlt))
            · exact hfirst t ht2 htv

/-- The fallback loop on a non-empty start-sorted list returns the
segment with the smallest center distance, earliest start first. -/
lemma fallbackGo_spec (cs ce : ℚ) (segs : List DiarSeg) (hne : segs ≠ [])
    (hsorted : List.Sorted diarStartLE segs) :
    ∃ d ∈ segs, (fallbackGo cs ce none none segs).1 = some d ∧
      (∀ t ∈ segs, centerDist cs ce d ≤ centerDist cs ce t) ∧
      (∀ t ∈ segs, centerDist cs ce t = centerDist cs ce d → d.start ≤ t.start) := by
  rcases segs with _ | ⟨d, rest⟩
  · exact absurd rfl hne
  · obtain ⟨hhd, htl⟩ := List.sorted_cons.mp hsorted
    rw [fallbackGo]
    rcases fallbackGo_spec_some cs ce rest d htl with
      ⟨heq, hall⟩ | ⟨e, he, heq, hlt2, hmin, hfirst⟩
    · refine ⟨d, List.mem_cons_self d rest, heq, ?_, ?_⟩
      · intro t ht
        rcases List.mem_cons.mp ht with rfl | ht2
        · exact le_refl _
        · exact hall t ht2
      · intro t ht _
        rcases List.mem_cons.mp ht with rfl | ht2
        · exact le_refl _
        · exact hhd t ht2
    · refine ⟨e, List.mem_cons_of_mem d he, heq, ?_, ?_⟩
      · intro t ht
        rcases List.mem_cons.mp ht with rfl | ht2
        · exact le_of_lt hlt2
        · exact hmin t ht2
      · intro t ht htv
        rcases List.mem_cons.mp ht with rfl | ht2
        · exact absurd htv (ne_of_gt hlt2)
        · exact hfirst t ht2 htv

/- ---------------------------------------------------------------------
C1 : two-phase speaker attribution (corrected)
--------------------------------------------------------------------- -/

/-- C1 counterexample.  The claim states that for every chunk with
non-null boundaries and non-empty stripped text and every non-empty
start-sorted diarization list, exactly one speaker is selected and the
result is never None.  With the single diarization segment whose speaker
id is the empty string (which overlaps the chunk completely), the source
treats the selected speaker as falsy (Python truthiness), re-runs the
fallback, still ends with a falsy speaker, and emits nothing: no speaker
is selected. -/
theorem simple_speaker_mapping_empty_speaker_cex :
    simple_speaker_mapping [⟨some (some 0, some 1), "hi"⟩] [⟨"", 0, 1⟩] = [] ∧
    ([⟨"", 0, 1⟩] : List DiarSeg) ≠ [] ∧
    List.Sorted diarStartLE [⟨"", 0, 1⟩] ∧
    pyStrip "hi" ≠ "" := by
  refine ⟨?_, by decide, by simp, by decide⟩
  norm_num [simple_speaker_mapping, mapChunk, bestSpeakerFor, overlapGo,
    fallbackGo, falsySpeaker, pyStrip, centerDist, segCenter]

/-- C1 (amended): for a chunk with non-null boundaries and non-empty
stripped text, and a non-empty start-sorted diarization list all of whose
speaker ids are non-empty strings, simple_speaker_mapping selects exactly
one speaker: the speaker of the first segment attaining the strictly
greatest positive overlap (earliest start among ties) when a positive
overlap exists, and otherwise the speaker of the segment with the nearest
center (earliest start among ties); the result is never empty. -/
theorem simple_speaker_mapping_two_phase :
    ∀ (cs ce : ℚ) (txt : String) (segs : List DiarSeg),
      segs ≠ [] → List.Sorted diarStartLE segs →
      (∀ d ∈ segs, d.speaker ≠ "") → pyStrip txt ≠ "" →
      ∃ d ∈ segs,
        simple_speaker_mapping [⟨some (some cs, some ce), txt⟩] segs =
          [⟨pyStrip txt, pyRound3 cs, pyRound3 ce, d.speaker⟩] ∧
        ((∃ t ∈ segs, 0 < ovDur cs ce t) →
          0 < ovDur cs ce d ∧
          (∀ t ∈ segs, ovDur cs ce t ≤ ovDur cs ce d) ∧
          (∀ t ∈ segs, ovDur cs ce t = ovDur cs ce d → d.start ≤ t.start)) ∧
        ((∀ t ∈ segs, ovDur cs ce t ≤ 0) →
          (∀ t ∈ segs, centerDist cs ce d ≤ centerDist cs ce t) ∧
          (∀ t ∈ segs, centerDist cs ce t = centerDist cs ce d →
            d.start ≤ t.start)) := by
  intro cs ce txt segs hne hsorted hspk htxt
  rcases overlapGo_spec cs ce segs none 0 (le_refl 0) hsorted with
    ⟨heq, hall⟩ | ⟨d, hd, heq, hpos, hmax, hfirst⟩
  · rcases fallbackGo_spec cs ce segs hne hsorted with ⟨d, hd, hfb, hmin, hfbf⟩
    have hb : bestSpeakerFor cs ce segs = some d.speaker := by
      rw [bestSpeakerFor, heq]
      simp [falsySpeaker, hfb]
    refine ⟨d, hd, ?_, ?_, ?_⟩
    · simp [simple_speaker_mapping, mapChunk, htxt, hb, falsySpeaker, hspk d hd]
    · rintro ⟨t, ht, htpos⟩
      exact absurd htpos (not_lt.mpr (hall t ht))
    · intro _
      exact ⟨hmin, hfbf⟩
  · have hb : bestSpeakerFor cs ce segs = some d.speaker := by
      rw [bestSpeakerFor, heq]
      simp [falsySpeaker, hspk d hd]
    refine ⟨d, hd, ?_, ?_, ?_⟩
    · simp [simple_speaker_mapping, mapChunk, htxt, hb, falsySpeaker, hspk d hd]
    · intro _
      exact ⟨hpos, hmax, hfirst⟩
    · intro hallle
      exact absurd hpos (not_lt.mpr (hallle d hd))

/-- C1 witness: the amended statement applied to a chunk from 0 to 1 with
text hi against the single diarization segment of speaker S1 from 0 to
1. -/
theorem simple_speaker_mapping_two_phase_witness :
    ∃ d ∈ ([⟨"S1", 0, 1⟩] : List DiarSeg),
      simple_speaker_mapping [⟨some (some 0, some 1), "hi"⟩] [⟨"S1", 0, 1⟩] =
        [⟨pyStrip "hi", pyRound3 0, pyRound3 1, d.speaker⟩] ∧
      ((∃ t ∈ ([⟨"S1", 0, 1⟩] : List DiarSeg), 0 < ovDur 0 1 t) →
        0 < ovDur 0 1 d ∧
        (∀ t ∈ ([⟨"S1", 0, 1⟩] : List DiarSeg), ovDur 0 1 t ≤ ovDur 0 1 d) ∧
        (∀ t ∈ ([⟨"S1", 0, 1⟩] : List DiarSeg),
          ovDur 0 1 t = ovDur 0 1 d → d.start ≤ t.start)) ∧
      ((∀ t ∈ ([⟨"S1", 0, 1⟩] : List DiarSeg), ovDur 0 1 t ≤ 0) →
        (∀ t ∈ ([⟨"S1", 0, 1⟩] : List DiarSeg),
          centerDist 0 1 d ≤ centerDist 0 1 t) ∧
        (∀ t ∈ ([⟨"S1", 0, 1⟩] : List DiarSeg),
          centerDist 0 1 t = centerDist 0 1 d → d.start ≤ t.start)) :=
  simple_speaker_mapping_two_phase 0 1 "hi" [⟨"S1", 0, 1⟩]
    (by decide) (by simp) (by decide) (by decide)

/- ---------------------------------------------------------------------
C2 : chopping partitions the recording
--------------------------------------------------------------------- -/

lemma chop_audio_length (L cd : ℕ) :
    (chop_audio L cd).length = (L + cd * 1000 - 1) / (cd * 1000) := by
  simp [chop_audio, pyRangeStep]

lemma chop_audio_get (L cd : ℕ) (k : ℕ) (h : k < (chop_audio L cd).length) :
    (chop_audio L cd).get ⟨k, h⟩ =
      { start_time := ((k * (cd * 1000) : ℕ) : ℚ) / 1000,
        end_time := min (((k * (cd * 1000) + cd * 1000 : ℕ) : ℚ) / 1000)
          ((L : ℚ) / 1000),
        index := k * (cd * 1000) / (cd * 1000) } := by
  simp [chop_audio, pyRangeStep, List.get_map, List.get_range]

/-- C2: for positive audio length and chunk duration, chop_audio yields
chunks whose ranges partition the interval from 0 to the total duration:
the chunk count is the ceiling of duration over chunk_duration, the first
chunk starts at 0, each chunk ends where the next starts, every chunk is
non-degenerate, the last chunk ends at the (truncated) total duration,
and a recording no longer than one chunk yields exactly one chunk
spanning it. -/
theorem chop_audio_partition :
    ∀ L cd : ℕ, 0 < L → 0 < cd →
      ((chop_audio L cd).length : ℤ) =
        ⌈((L : ℚ) / 1000) / (cd : ℚ)⌉ ∧
      (∀ h : 0 < (chop_audio L cd).length,
        ((chop_audio L cd).get ⟨0, h⟩).start_time = 0) ∧
      (∀ h : 0 < (chop_audio L cd).length,
        ((chop_audio L cd).get
          ⟨(chop_audio L cd).length - 1, by omega⟩).end_time =
          (L : ℚ) / 1000) ∧
      (∀ k (h : k + 1 < (chop_audio L cd).length),
        ((chop_audio L cd).get ⟨k, by omega⟩).end_time =
          ((chop_audio L cd).get ⟨k + 1, h⟩).start_time) ∧
      (∀ c ∈ chop_audio L cd, c.start_time < c.end_time) ∧
      (L ≤ cd * 1000 →
        chop_audio L cd = [⟨0, (L : ℚ) / 1000, 0⟩]) := by
  intro L cd hL hcd
  have hM : 0 < cd * 1000 := by positivity
  have hMq : (0 : ℚ) < ((cd * 1000 : ℕ) : ℚ) := by exact_mod_cast hM
  -- Notation: M is the chunk length in milliseconds, n the chunk count.
  set M := cd * 1000 with hMdef
  set n := (L + M - 1) / M with hndef
  have e := Nat.div_add_mod (L + M - 1) M
  rw [← hndef] at e
  have hr : (L + M - 1) % M < M := Nat.mod_lt _ hM
  have hlen : (chop_audio L cd).length = n := chop_audio_length L cd
  have hn1 : 1 ≤ n := by
    rw [hndef]
    exact (Nat.one_le_div_iff hM).mpr (by omega)
  have hLle : L ≤ n * M := by
    rw [Nat.mul_comm]
    omega
  have hkM : ∀ k, k < n → k * M < L := by
    intro k hk
    have h0 : k + 1 ≤ (L + M - 1) / M := by
      rw [← hndef]
      omega
    have h1 : (k + 1) * M ≤ L + M - 1 := (Nat.le_div_iff_mul_le hM).mp h0
    have h2 : k * M + M = (k + 1) * M := by ring
    omega
  have hkM2 : ∀ k, k + 1 < n → (k + 1) * M ≤ L := by
    intro k hk
    have := hkM (k + 1) hk
    omega
  have hcast : ∀ a b : ℕ, a ≤ b → ((a : ℚ) / 1000 ≤ (b : ℚ) / 1000) := by
    intro a b hab
    have : (a : ℚ) ≤ (b : ℚ) := by exact_mod_cast hab
    linarith
  have hcastlt : ∀ a b : ℕ, a < b → ((a : ℚ) / 1000 < (b : ℚ) / 1000) := by
    intro a b hab
    have : (a : ℚ) < (b : ℚ) := by exact_mod_cast hab
    linarith
  refine ⟨?_, ?_, ?_, ?_, ?_, ?_⟩
  · -- chunk count = ceiling of the duration over the chunk duration
    rw [hlen]
    have hq : ((L : ℚ) / 1000) / (cd : ℚ) = (L : ℚ) / ((M : ℕ) : ℚ) := by
      rw [div_div, hMdef]
      push_cast
      ring_nf
    rw [hq]
    symm
    rw [Int.ceil_eq_iff]
    constructor
    · have hnat : (n - 1) * M < L := by
        have := hkM (n - 1) (by omega)
        exact this
      have hz : ((n : ℚ) - 1) * ((M : ℕ) : ℚ) < (L : ℚ) := by
        have hc : (((n - 1) * M : ℕ) : ℚ) < ((L : ℕ) : ℚ) := by exact_mod_cast hnat
        push_cast [Nat.cast_sub hn1] at hc
        linarith
      have := (lt_div_iff₀ hMq).mpr hz
      push_cast
      linarith
    · have hz : (L : ℚ) ≤ (n : ℚ) * ((M : ℕ) : ℚ) := by
        exact_mod_cast hLle
      have := (div_le_iff₀ hMq).mpr hz
      push_cast
      linarith
  · -- the first chunk starts at 0
    intro h
    rw [chop_audio_get L cd 0 h]
    norm_num
  · -- the last chunk ends at the total duration
    intro h
    rw [chop_audio_get L cd _ (by omega)]
    simp only [hlen]
    have he : (n - 1) * M + M = n * M := by
      have h2 : M ≤ n * M := Nat.le_mul_of_pos_left M (by omega)
      rw [Nat.sub_one_mul]
      omega
    rw [he]
    exact min_eq_right (hcast L (n * M) hLle)
  · -- each chunk ends where the next starts
    intro k h
    rw [chop_audio_get L cd k (by omega), chop_audio_get L cd (k + 1) h]
    simp only [hlen] at h
    have hle : k * M + M ≤ L := by
      have h1 := hkM2 k h
      have h2 : k * M + M = (k + 1) * M := by ring
      omega
    have : min (((k * M + M : ℕ) : ℚ) / 1000) ((L : ℚ) / 1000) =
        ((k * M + M : ℕ) : ℚ) / 1000 := min_eq_left (hcast _ _ hle)
    rw [this]
    have hMq2 : ((M : ℕ) : ℚ) = (cd : ℚ) * 1000 := by
      rw [hMdef]
      push_cast
      ring
    push_cast
    rw [hMq2]
    ring
  · -- every chunk is non-degenerate
    intro c hc
    rcases List.mem_iff_get.mp hc with ⟨⟨k, hk⟩, rfl⟩
    rw [chop_audio_get L cd k hk]
    simp only [hlen] at hk
    apply lt_min
    · exact hcastlt _ _ (by omega)
    · exact hcastlt _ _ (hkM k hk)
  · -- a recording no longer than one chunk yields one spanning chunk
    intro hsmall
    have hn : n = 1 := by
      rw [hndef]
      apply Nat.div_eq_of_lt_le <;> omega
    have hr : (L + M - 1) / M = 1 := by rw [← hndef]; exact hn
    have hrange : List.range ((L + M - 1) / M) = [0] := by
      rw [hr]
      rfl
    rw [chop_audio, pyRangeStep, ← hMdef, hrange]
    simp only [List.map_cons, List.map_nil, Nat.zero_mul, Nat.zero_add]
    have hmin : min (((M : ℕ) : ℚ) / 1000) ((L : ℚ) / 1000) =
        (L : ℚ) / 1000 := min_eq_right (hcast L M hsmall)
    simp [hmin, Nat.zero_div, ChunkInfo.mk.injEq]

/-- C2 witness: a 2.5 second recording chopped with a 1 second chunk
duration. -/
theorem chop_audio_partition_witness :
    ((chop_audio 2500 1).length : ℤ) =
      ⌈((2500 : ℚ) / 1000) / ((1 : ℕ) : ℚ)⌉ ∧
    (∀ h : 0 < (chop_audio 2500 1).length,
      ((chop_audio 2500 1).get ⟨0, h⟩).start_time = 0) ∧
    (∀ h : 0 < (chop_audio 2500 1).length,
      ((chop_audio 2500 1).get
        ⟨(chop_audio 2500 1).length - 1, by omega⟩).end_time =
        (2500 : ℚ) / 1000) ∧
    (∀ k (h : k + 1 < (chop_audio 2500 1).length),
      ((chop_audio 2500 1).get ⟨k, by omega⟩).end_time =
        ((chop_audio 2500 1).get ⟨k + 1, h⟩).start_time) ∧
    (∀ c ∈ chop_audio 2500 1, c.start_time < c.end_time) ∧
    (2500 ≤ 1 * 1000 → chop_audio 2500 1 = [⟨0, (2500 : ℚ) / 1000, 0⟩]) := by
  have h := chop_audio_partition 2500 1 (by norm_num) (by norm_num)
  simpa using h

/- ---------------------------------------------------------------------
C8 : chopped-mode failure isolation
--------------------------------------------------------------------- -/

/-- C8: in chopped mode, a chunk whose sub-pipeline raises is caught and
excluded from reassembly while the run continues over the remaining
chunks (removing a failing chunk from the chunk list does not change the
result), and the run raises exactly when zero chunks succeed. -/
theorem main_chopped_failure_isolation :
    ∀ proc : ChunkInfo → Option (List Seg),
      (∀ (pre post : List ChunkInfo) (bad : ChunkInfo), proc bad = none →
        main_chopped (pre ++ bad :: post) proc =
          main_chopped (pre ++ post) proc) ∧
      (∀ chunks : List ChunkInfo,
        (∃ msg, main_chopped chunks proc = Except.error msg) ↔
          ∀ ci ∈ chunks, proc ci = none) := by
  intro proc
  constructor
  · intro pre post bad hbad
    have hfm : (pre ++ bad :: post).filterMap
        (fun ci => (proc ci).map (fun segs => (ci, segs))) =
        (pre ++ post).filterMap
          (fun ci => (proc ci).map (fun segs => (ci, segs))) := by
      simp [List.filterMap_append, List.filterMap_cons, hbad]
    simp only [main_chopped, hfm]
  · intro chunks
    rcases h : chunks.filterMap
        (fun ci => (proc ci).map (fun segs => (ci, segs))) with _ | ⟨x, xs⟩
    · constructor
      · intro _ ci hci
        have h2 := List.filterMap_eq_nil_iff.mp h ci hci
        simpa using h2
      · intro _
        exact ⟨"No chunks were successfully processed",
          by simp only [main_chopped, h]⟩
    · constructor
      · rintro ⟨msg, hmsg⟩
        simp only [main_chopped, h] at hmsg
        exact absurd hmsg (by simp)
      · intro hall
        have hx : x ∈ chunks.filterMap
            (fun ci => (proc ci).map (fun segs => (ci, segs))) := by
          rw [h]
          exact List.mem_cons_self x xs
        rcases List.mem_filterMap.mp hx with ⟨ci, hci, hmap⟩
        rw [hall ci hci] at hmap
        simp at hmap

/-- C8 witness: a two-chunk run whose second chunk fails computes the
same result as the one-chunk run without it, for a concrete per-chunk
oracle succeeding only on index 0. -/
theorem main_chopped_failure_isolation_witness :
    main_chopped ([⟨0, 900, 0⟩] ++ ⟨900, 1800, 1⟩ :: [])
      (fun ci => if ci.index = 0 then some [] else none) =
    main_chopped ([⟨0, 900, 0⟩] ++ [])
      (fun ci => if ci.index = 0 then some [] else none) :=
  (main_chopped_failure_isolation
    (fun ci => if ci.index = 0 then some [] else none)).1
    [⟨0, 900, 0⟩] [] ⟨900, 1800, 1⟩ rfl

/- ---------------------------------------------------------------------
C5 : diarization fragment merging
--------------------------------------------------------------------- -/

/-- The speakers of a segment list in order of first occurrence: the key
order of the CPython dict built by the grouping loop. -/
def firstKeys : List DiarSeg → List String
  | [] => []
  | s :: rest => s.speaker :: (firstKeys rest).filter (fun k => k ≠ s.speaker)

/-- Reference algorithm for merge_continuous_fragments, following the
spec sentence: group the segments by speaker, sort each group by start,
merge within each group (gap at most 2 seconds), concatenate and re-sort
by start. -/
def specFragmentMerge (segs : List DiarSeg) : List DiarSeg :=
  sortDiar ((firstKeys segs).flatMap
    (fun k => mergeGroup (sortDiar (segs.filter (fun s => s.speaker = k)))))

lemma mem_firstKeys (k : String) :
    ∀ l : List DiarSeg, k ∈ firstKeys l ↔ ∃ x ∈ l, x.speaker = k := by
  intro l
  induction l with
  | nil => simp [firstKeys]
  | cons s rest ih =>
      rw [firstKeys]
      constructor
      · intro h
        rcases List.mem_cons.mp h with h1 | h1
        · exact ⟨s, List.mem_cons_self _ _, h1.symm⟩
        · have h2 := (List.mem_filter.mp h1).1
          rcases ih.mp h2 with ⟨x, hx, hxk⟩
          exact ⟨x, List.mem_cons_of_mem _ hx, hxk⟩
      · rintro ⟨x, hx, hxk⟩
        rcases List.mem_cons.mp hx with rfl | hx2
        · rw [hxk]
          exact List.mem_cons_self _ _
        · by_cases he : k = s.speaker
          · rw [he]
            exact List.mem_cons_self _ _
          · apply List.mem_cons_of_mem
            rw [List.mem_filter]
            exact ⟨ih.mpr ⟨x, hx2, hxk⟩, by simpa using he⟩

lemma firstKeys_nodup : ∀ l : List DiarSeg, (firstKeys l).Nodup := by
  intro l
  induction l with
  | nil => simp [firstKeys]
  | cons s rest ih =>
      rw [firstKeys]
      refine List.Nodup.cons ?_ (List.Nodup.filter _ ih)
      intro hmem
      have := (List.mem_filter.mp hmem).2
      simp at this

lemma firstKeys_snoc (l : List DiarSeg) (s : DiarSeg) :
    firstKeys (l ++ [s]) =
      if s.speaker ∈ firstKeys l then firstKeys l
      else firstKeys l ++ [s.speaker] := by
  induction l with
  | nil => simp [firstKeys]
  | cons a rest ih =>
      rw [List.cons_append, firstKeys, ih, firstKeys]
      by_cases hmem : s.speaker ∈ firstKeys rest
      · rw [if_pos hmem, if_pos]
        rw [List.mem_cons, List.mem_filter]
        by_cases he : s.speaker = a.speaker
        · exact Or.inl he
        · exact Or.inr ⟨hmem, by simpa using he⟩
      · rw [if_neg hmem]
        by_cases he : s.speaker = a.speaker
        · rw [if_pos (by rw [List.mem_cons]; exact Or.inl he)]
          rw [List.filter_append]
          have : List.filter (fun k => decide (k ≠ a.speaker)) [s.speaker] = [] := by
            simp [he]
          rw [this, List.append_nil]
        · rw [if_neg]
          · rw [List.filter_append]
            have : List.filter (fun k => decide (k ≠ a.speaker)) [s.speaker] =
                [s.speaker] := by simp [he]
            rw [this, List.cons_append]
          · rw [List.mem_cons, List.mem_filter]
            rintro (h | ⟨h, _⟩)
            · exact he h
            · exact hmem h

/-- The grouping of a segment list by speaker, expressed with filters:
the value the dict-building loop computes. -/
def groupOf (l : List DiarSeg) : List (String × List DiarSeg) :=
  (firstKeys l).map (fun k => (k, l.filter (fun s => s.speaker = k)))

lemma updateGroup_map_mem (s : DiarSeg) (f : String → List DiarSeg) :
    ∀ ks : List String, ks.Nodup → s.speaker ∈ ks →
      updateGroup s (ks.map (fun k => (k, f k))) =
        ks.map (fun k => (k, if k = s.speaker then f k ++ [s] else f k)) := by
  intro ks
  induction ks with
  | nil => intro _ h; simp at h
  | cons k0 t ih =>
      intro hnd hmem
      rw [List.map_cons, updateGroup, List.map_cons]
      by_cases he : k0 = s.speaker
      · rw [if_pos he, if_pos he]
        congr 1
        apply List.map_congr_left
        intro k hk
        have : k ≠ s.speaker := by
          intro hks
          have : k0 ∈ t := by
            rw [he, ← hks]
            exact hk
          exact (List.nodup_cons.mp hnd).1 this
        rw [if_neg this]
      · rw [if_neg he, if_neg he]
        have hmem2 : s.speaker ∈ t := by
          rcases List.mem_cons.mp hmem with h | h
          · exact absurd h.symm he
          · exact h
        rw [ih (List.nodup_cons.mp hnd).2 hmem2]

lemma updateGroup_map_not_mem (s : DiarSeg) (f : String → List DiarSeg) :
    ∀ ks : List String, s.speaker ∉ ks →
      updateGroup s (ks.map (fun k => (k, f k))) =
        ks.map (fun k => (k, f k)) ++ [(s.speaker, [s])] := by
  intro ks
  induction ks with
  | nil => intro _; rfl
  | cons k0 t ih =>
      intro hmem
      rw [List.map_cons, updateGroup]
      have he : k0 ≠ s.speaker := fun h => hmem (by rw [h]; exact List.mem_cons_self _ _)
      rw [if_neg he, ih (fun h => hmem (List.mem_cons_of_mem _ h))]
      rfl

lemma updateGroup_groupOf (l : List DiarSeg) (s : DiarSeg) :
    updateGroup s (groupOf l) = groupOf (l ++ [s]) := by
  by_cases hmem : s.speaker ∈ firstKeys l
  · rw [groupOf, updateGroup_map_mem s _ (firstKeys l) (firstKeys_nodup l) hmem,
      groupOf, firstKeys_snoc, if_pos hmem]
    apply List.map_congr_left
    intro k hk
    rw [List.filter_append]
    by_cases he : k = s.speaker
    · subst he
      simp
    · have : List.filter (fun x => decide (x.speaker = k)) [s] = [] := by
        simp [Ne.symm he]
      rw [this, List.append_nil, if_neg he]
  · rw [groupOf, updateGroup_map_not_mem s _ (firstKeys l) hmem,
      groupOf, firstKeys_snoc, if_neg hmem, List.map_append]
    congr 1
    · apply List.map_congr_left
      intro k hk
      rw [List.filter_append]
      have he : k ≠ s.speaker := fun h => hmem (h ▸ hk)
      have : List.filter (fun x => decide (x.speaker = k)) [s] = [] := by
        simp [Ne.symm he]
      rw [this, List.append_nil]
    · rw [List.map_cons, List.map_nil]
      have h1 : List.filter (fun x => decide (x.speaker = s.speaker)) l = [] := by
        rw [List.filter_eq_nil_iff]
        intro a ha
        simp only [decide_eq_true_eq]
        intro hsp
        exact hmem ((mem_firstKeys s.speaker l).mpr ⟨a, ha, hsp⟩)
      rw [List.filter_append, h1, List.nil_append]
      simp

lemma groupBySpeaker_eq_groupOf (segs : List DiarSeg) :
    groupBySpeaker segs = groupOf segs := by
  have key : ∀ (rest l : List DiarSeg),
      List.foldl (fun acc s => updateGroup s acc) (groupOf l) rest =
        groupOf (l ++ rest) := by
    intro rest
    induction rest with
    | nil => intro l; rw [List.foldl_nil, List.append_nil]
    | cons s t ih =>
        intro l
        rw [List.foldl_cons, updateGroup_groupOf, ih, List.append_assoc]
        rfl
  have h0 : groupOf [] = [] := rfl
  rw [groupBySpeaker, ← h0]
  exact (key segs []).trans (by rw [List.nil_append])

/-- Origins of a merged segment: its speaker, start and stop values each
come from the running segment or from the scanned list. -/
lemma mergeRun_mem_src :
    ∀ (rest : List DiarSeg) (cur m : DiarSeg), m ∈ mergeRun cur rest →
      (m.speaker = cur.speaker ∨ ∃ x ∈ rest, m.speaker = x.speaker) ∧
      (m.start = cur.start ∨ ∃ x ∈ rest, m.start = x.start) ∧
      (m.stop = cur.stop ∨ ∃ x ∈ rest, m.stop = x.stop) := by
  intro rest
  induction rest with
  | nil =>
      intro cur m hm
      rw [mergeRun] at hm
      rcases List.mem_singleton.mp hm with rfl
      exact ⟨Or.inl rfl, Or.inl rfl, Or.inl rfl⟩
  | cons n rest2 ih =>
      intro cur m hm
      rw [mergeRun] at hm
      split_ifs at hm with hgap
      · obtain ⟨hs, ha, hb⟩ := ih _ _ hm
        refine ⟨?_, ?_, ?_⟩
        · rcases hs with h | ⟨x, hx, hxe⟩
          · exact Or.inl h
          · exact Or.inr ⟨x, List.mem_cons_of_mem _ hx, hxe⟩
        · rcases ha with h | ⟨x, hx, hxe⟩
          · exact Or.inl h
          · exact Or.inr ⟨x, List.mem_cons_of_mem _ hx, hxe⟩
        · rcases hb with h | ⟨x, hx, hxe⟩
          · exact Or.inr ⟨n, List.mem_cons_self _ _, h⟩
          · exact Or.inr ⟨x, List.mem_cons_of_mem _ hx, hxe⟩
      · rcases List.mem_cons.mp hm with rfl | hm2
        · exact ⟨Or.inl rfl, Or.inl rfl, Or.inl rfl⟩
        · obtain ⟨hs, ha, hb⟩ := ih _ _ hm2
          refine ⟨?_, ?_, ?_⟩
          · rcases hs with h | ⟨x, hx, hxe⟩
            · exact Or.inr ⟨n, List.mem_cons_self _ _, h⟩
            · exact Or.inr ⟨x, List.mem_cons_of_mem _ hx, hxe⟩
          · rcases ha with h | ⟨x, hx, hxe⟩
            · exact Or.inr ⟨n, List.mem_cons_self _ _, h⟩
            · exact Or.inr ⟨x, List.mem_cons_of_mem _ hx, hxe⟩
          · rcases hb with h | ⟨x, hx, hxe⟩
            · exact Or.inr ⟨n, List.mem_cons_self _ _, h⟩
            · exact Or.inr ⟨x, List.mem_cons_of_mem _ hx, hxe⟩

/-- The embedded merge pass computes the reference algorithm of the
spec. -/
lemma merge_continuous_fragments_eq_spec (segs : List DiarSeg) :
    merge_continuous_fragments segs = specFragmentMerge segs := by
  rcases segs with _ | ⟨s, rest⟩
  · rfl
  · have h1 : merge_continuous_fragments (s :: rest) =
        sortDiar ((groupBySpeaker (s :: rest)).flatMap
          (fun g => mergeGroup (sortDiar g.2))) := rfl
    rw [h1, specFragmentMerge, groupBySpeaker_eq_groupOf, groupOf,
      List.flatMap_map]

/-- Every merged segment takes its speaker and start from one input
segment of its own speaker, and its stop from another. -/
lemma merge_continuous_fragments_origins (segs : List DiarSeg) (m : DiarSeg)
    (hm : m ∈ merge_continuous_fragments segs) :
    (∃ a ∈ segs, a.speaker = m.speaker ∧ a.start = m.start) ∧
    (∃ b ∈ segs, b.speaker = m.speaker ∧ b.stop = m.stop) := by
  rw [merge_continuous_fragments_eq_spec] at hm
  rw [specFragmentMerge] at hm
  have hm2 := (sortDiar_perm _).mem_iff.mp hm
  rcases List.mem_flatMap.mp hm2 with ⟨k, hk, hmk⟩
  rcases hg : sortDiar (segs.filter (fun s => s.speaker = k)) with _ | ⟨g0, grest⟩
  · rw [hg] at hmk
    simp [mergeGroup] at hmk
  · rw [hg, mergeGroup] at hmk
    have hgmem : ∀ x, x ∈ g0 :: grest → x ∈ segs ∧ x.speaker = k := by
      intro x hx
      have : x ∈ segs.filter (fun s => s.speaker = k) := by
        rw [← hg] at hx
        exact (sortDiar_perm _).mem_iff.mp hx
      have h2 := List.mem_filter.mp this
      exact ⟨h2.1, by simpa using h2.2⟩
    obtain ⟨hs, ha, hb⟩ := mergeRun_mem_src grest g0 m hmk
    have hmspk : m.speaker = k := by
      rcases hs with h | ⟨x, hx, hxe⟩
      · rw [h]
        exact (hgmem g0 (List.mem_cons_self _ _)).2
      · rw [hxe]
        exact (hgmem x (List.mem_cons_of_mem _ hx)).2
    constructor
    · rcases ha with h | ⟨x, hx, hxe⟩
      · obtain ⟨hin, hspk⟩ := hgmem g0 (List.mem_cons_self _ _)
        exact ⟨g0, hin, by rw [hspk, hmspk], h.symm⟩
      · obtain ⟨hin, hspk⟩ := hgmem x (List.mem_cons_of_mem _ hx)
        exact ⟨x, hin, by rw [hspk, hmspk], hxe.symm⟩
    · rcases hb with h | ⟨x, hx, hxe⟩
      · obtain ⟨hin, hspk⟩ := hgmem g0 (List.mem_cons_self _ _)
        exact ⟨g0, hin, by rw [hspk, hmspk], h.symm⟩
      · obtain ⟨hin, hspk⟩ := hgmem x (List.mem_cons_of_mem _ hx)
        exact ⟨x, hin, by rw [hspk, hmspk], hxe.symm⟩

/-- C5: merge_continuous_fragments equals the reference algorithm (group
by speaker, sort each group by start, merge exactly when the gap
next.start - current.end is at most 2.0, re-sort by start), and it never
merges distinct speakers into each other: every output segment takes its
speaker, start and stop from input segments of its own speaker. -/
theorem merge_continuous_fragments_spec :
    (∀ segs, merge_continuous_fragments segs = specFragmentMerge segs) ∧
    (∀ segs m, m ∈ merge_continuous_fragments segs →
      (∃ a ∈ segs, a.speaker = m.speaker ∧ a.start = m.start) ∧
      (∃ b ∈ segs, b.speaker = m.speaker ∧ b.stop = m.stop)) :=
  ⟨merge_continuous_fragments_eq_spec, merge_continuous_fragments_origins⟩

/-- C5 witness: two same-speaker fragments with a 1 second gap merge into
one segment whose boundaries come from the two inputs. -/
theorem merge_continuous_fragments_spec_witness :
    merge_continuous_fragments [⟨"A", 0, 1⟩, ⟨"A", 2, 3⟩] =
      specFragmentMerge [⟨"A", 0, 1⟩, ⟨"A", 2, 3⟩] ∧
    ((∃ a ∈ ([⟨"A", 0, 1⟩, ⟨"A", 2, 3⟩] : List DiarSeg),
        a.speaker = (⟨"A", 0, 3⟩ : DiarSeg).speaker ∧
        a.start = (⟨"A", 0, 3⟩ : DiarSeg).start) ∧
     (∃ b ∈ ([⟨"A", 0, 1⟩, ⟨"A", 2, 3⟩] : List DiarSeg),
        b.speaker = (⟨"A", 0, 3⟩ : DiarSeg).speaker ∧
        b.stop = (⟨"A", 0, 3⟩ : DiarSeg).stop)) :=
  ⟨merge_continuous_fragments_spec.1 _,
   merge_continuous_fragments_spec.2 [⟨"A", 0, 1⟩, ⟨"A", 2, 3⟩] ⟨"A", 0, 3⟩
    (by
      norm_num [merge_continuous_fragments, groupBySpeaker, updateGroup,
        mergeGroup, mergeRun, sortDiar, List.insertionSort, List.orderedInsert,
        diarStartLE])⟩

/- ---------------------------------------------------------------------
C4 : chunk processing order (corrected)
--------------------------------------------------------------------- -/

/-- C4 counterexample.  The claim states the reassembler output is
identical for any two permutations of the chunk results.  When two
segments of different chunks land on the same absolute start, the stable
sort keeps them in concatenation order, so swapping the two chunks swaps
the two segments in the output. -/
theorem merge_chunk_outputs_order_dependent_cex :
    ((([(⟨0, 900, 0⟩, [⟨"a", 900, 901, "S1"⟩]),
        (⟨900, 1800, 1⟩, [⟨"b", 0, 1, "S2"⟩])] : List (ChunkInfo × List Seg))).Perm
      [(⟨900, 1800, 1⟩, [⟨"b", 0, 1, "S2"⟩]),
       (⟨0, 900, 0⟩, [⟨"a", 900, 901, "S1"⟩])]) ∧
    merge_chunk_outputs
        [(⟨0, 900, 0⟩, [⟨"a", 900, 901, "S1"⟩]),
         (⟨900, 1800, 1⟩, [⟨"b", 0, 1, "S2"⟩])] ≠
      merge_chunk_outputs
        [(⟨900, 1800, 1⟩, [⟨"b", 0, 1, "S2"⟩]),
         (⟨0, 900, 0⟩, [⟨"a", 900, 901, "S1"⟩])] := by
  constructor
  · exact List.Perm.swap _ _ _
  · have e1 : merge_chunk_outputs
        [(⟨0, 900, 0⟩, [⟨"a", 900, 901, "S1"⟩]),
         (⟨900, 1800, 1⟩, [⟨"b", 0, 1, "S2"⟩])] =
        [⟨"a", 900, 901, "S1"⟩, ⟨"b", 900, 901, "S2"⟩] := by
      norm_num [merge_chunk_outputs, sortSegs, shiftSeg, List.insertionSort,
        List.orderedInsert, segStartLE]
    have e2 : merge_chunk_outputs
        [(⟨900, 1800, 1⟩, [⟨"b", 0, 1, "S2"⟩]),
         (⟨0, 900, 0⟩, [⟨"a", 900, 901, "S1"⟩])] =
        [⟨"b", 900, 901, "S2"⟩, ⟨"a", 900, 901, "S1"⟩] := by
      norm_num [merge_chunk_outputs, sortSegs, shiftSeg, List.insertionSort,
        List.orderedInsert, segStartLE]
    rw [e1, e2]
    simp

/-- C4 (amended): the reassembler output is identical for any two
permutations of the chunk results whenever the offset-corrected absolute
start times are pairwise distinct; without that proviso only the multiset
of output segments is permutation-invariant. -/
theorem merge_chunk_outputs_order_independent :
    ∀ rs1 rs2 : List (ChunkInfo × List Seg),
      rs1.Perm rs2 →
      (rs1.flatMap (fun p => p.2.map (shiftSeg p.1.start_time))).Pairwise
        (fun a b => a.start ≠ b.start) →
      merge_chunk_outputs rs1 = merge_chunk_outputs rs2 := by
  intro rs1 rs2 hperm hdist
  have hp : (rs1.flatMap (fun p => p.2.map (shiftSeg p.1.start_time))).Perm
      (rs2.flatMap (fun p => p.2.map (shiftSeg p.1.start_time))) :=
    List.Perm.flatMap_right _ hperm
  have hsym : ∀ {x y : Seg}, x.start ≠ y.start → y.start ≠ x.start :=
    fun h => h.symm
  have h1 : (merge_chunk_outputs rs1).Perm (merge_chunk_outputs rs2) :=
    ((sortSegs_perm _).trans hp).trans (sortSegs_perm _).symm
  have hne1 : (merge_chunk_outputs rs1).Pairwise
      (fun a b => a.start ≠ b.start) :=
    ((List.Perm.pairwise_iff hsym (sortSegs_perm _)).mpr) hdist
  have hne2 : (merge_chunk_outputs rs2).Pairwise
      (fun a b => a.start ≠ b.start) :=
    (List.Perm.pairwise_iff hsym h1).mp hne1
  have hstrict : ∀ l : List Seg, List.Sorted segStartLE l →
      l.Pairwise (fun a b => a.start ≠ b.start) →
      l.Pairwise (fun a b : Seg => a.start < b.start) := by
    intro l hle hne
    exact (hle.and hne).imp (fun hab => lt_of_le_of_ne hab.1 hab.2)
  haveI : IsAntisymm Seg (fun a b : Seg => a.start < b.start) :=
    ⟨fun a b h1 h2 => absurd h2 (not_lt.mpr (le_of_lt h1))⟩
  exact List.eq_of_perm_of_sorted h1
    (hstrict _ (sortSegs_sorted _) hne1)
    (hstrict _ (sortSegs_sorted _) hne2)

/-- C4 witness: the amended statement applied to two chunks whose
segments have distinct absolute starts, in the two processing orders. -/
theorem merge_chunk_outputs_order_independent_witness :
    merge_chunk_outputs
        [(⟨0, 900, 0⟩, [⟨"a", 10, 11, "S1"⟩]),
         (⟨900, 1800, 1⟩, [⟨"b", 0, 1, "S2"⟩])] =
      merge_chunk_outputs
        [(⟨900, 1800, 1⟩, [⟨"b", 0, 1, "S2"⟩]),
         (⟨0, 900, 0⟩, [⟨"a", 10, 11, "S1"⟩])] :=
  merge_chunk_outputs_order_independent _ _ (List.Perm.swap _ _ _)
    (by norm_num [shiftSeg, List.pairwise_cons])

/- ---------------------------------------------------------------------
C7 : merge passes, order and span well-formedness (corrected)
--------------------------------------------------------------------- -/

/-- The inner merge loop preserves well-formed spans when the running
segment starts no later than any scanned segment and the scanned list is
start-sorted. -/
lemma mergeRun_wf :
    ∀ (rest : List DiarSeg) (cur : DiarSeg),
      cur.start < cur.stop → (∀ x ∈ rest, x.start < x.stop) →
      (∀ x ∈ rest, cur.start ≤ x.start) → List.Sorted diarStartLE rest →
      ∀ m ∈ mergeRun cur rest, m.start < m.stop := by
  intro rest
  induction rest with
  | nil =>
      intro cur hcur _ _ _ m hm
      rw [mergeRun] at hm
      rcases List.mem_singleton.mp hm with rfl
      exact hcur
  | cons n rest2 ih =>
      intro cur hcur hwf hge hsorted m hm
      obtain ⟨hhd, htl⟩ := List.sorted_cons.mp hsorted
      rw [mergeRun] at hm
      split_ifs at hm with hgap
      · refine ih { cur with stop := n.stop } ?_ ?_ ?_ htl m hm
        · have h1 : cur.start ≤ n.start := hge n (List.mem_cons_self _ _)
          have h2 : n.start < n.stop := hwf n (List.mem_cons_self _ _)
          exact lt_of_le_of_lt h1 h2
        · exact fun x hx => hwf x (List.mem_cons_of_mem _ hx)
        · intro x hx
          exact le_trans (hge n (List.mem_cons_self _ _)) (hhd x hx)
      · rcases List.mem_cons.mp hm with rfl | hm2
        · exact hcur
        · refine ih n (hwf n (List.mem_cons_self _ _)) ?_ hhd htl m hm2
          exact fun x hx => hwf x (List.mem_cons_of_mem _ hx)

/-- The diarization merge pass emits a start-sorted list of well-formed
spans whenever the input spans are well-formed. -/
lemma merge_continuous_fragments_wf (segs : List DiarSeg)
    (hwf : ∀ s ∈ segs, s.start < s.stop) :
    List.Sorted diarStartLE (merge_continuous_fragments segs) ∧
    ∀ m ∈ merge_continuous_fragments segs, m.start < m.stop := by
  rw [merge_continuous_fragments_eq_spec, specFragmentMerge]
  refine ⟨sortDiar_sorted _, ?_⟩
  intro m hm
  have hm2 := (sortDiar_perm _).mem_iff.mp hm
  rcases List.mem_flatMap.mp hm2 with ⟨k, hk, hmk⟩
  rcases hg : sortDiar (segs.filter (fun s => s.speaker = k)) with _ | ⟨g0, grest⟩
  · rw [hg] at hmk
    simp [mergeGroup] at hmk
  · rw [hg, mergeGroup] at hmk
    have hgwf : ∀ x, x ∈ g0 :: grest → x.start < x.stop := by
      intro x hx
      have : x ∈ segs.filter (fun s => s.speaker = k) := by
        rw [← hg] at hx
        exact (sortDiar_perm _).mem_iff.mp hx
      exact hwf x (List.mem_filter.mp this).1
    have hsort : List.Sorted diarStartLE (g0 :: grest) := by
      rw [← hg]
      exact sortDiar_sorted _
    obtain ⟨hhd, htl⟩ := List.sorted_cons.mp hsort
    exact mergeRun_wf grest g0 (hgwf g0 (List.mem_cons_self _ _))
      (fun x hx => hgwf x (List.mem_cons_of_mem _ hx)) hhd htl m hmk

/-- The consolidation loop: every emitted utterance starts at the current
start or at a scanned segment start, all emitted spans are well-formed,
and the output is start-sorted — provided the scanned list is start-
sorted, well-formed, and starts no earlier than the current start. -/
lemma consolidateGo_props :
    ∀ (rest : List Seg) (maxGap : ℚ) (spk : String) (texts : List String)
      (st en : ℚ),
      st < en → (∀ x ∈ rest, x.start < x.stop) →
      (∀ x ∈ rest, st ≤ x.start) → List.Sorted segStartLE rest →
      (∀ m ∈ consolidateGo maxGap spk texts st en rest,
        (m.start = st ∨ ∃ x ∈ rest, m.start = x.start) ∧ m.start < m.stop) ∧
      List.Sorted segStartLE (consolidateGo maxGap spk texts st en rest) := by
  intro rest
  induction rest with
  | nil =>
      intro maxGap spk texts st en hen _ _ _
      rw [consolidateGo]
      constructor
      · intro m hm
        rcases List.mem_singleton.mp hm with rfl
        exact ⟨Or.inl rfl, hen⟩
      · exact List.sorted_singleton _
  | cons s rest2 ih =>
      intro maxGap spk texts st en hen hwf hge hsorted
      obtain ⟨hhd, htl⟩ := List.sorted_cons.mp hsorted
      rw [consolidateGo]
      split_ifs with hcond
      · have ihs := ih maxGap s.speaker [pyStrip s.text] s.start s.stop
          (hwf s (List.mem_cons_self _ _))
          (fun x hx => hwf x (List.mem_cons_of_mem _ hx)) hhd htl
        constructor
        · intro m hm
          rcases List.mem_cons.mp hm with rfl | hm2
          · exact ⟨Or.inl rfl, hen⟩
          · obtain ⟨horig, hwfm⟩ := ihs.1 m hm2
            refine ⟨?_, hwfm⟩
            rcases horig with h | ⟨x, hx, hxe⟩
            · exact Or.inr ⟨s, List.mem_cons_self _ _, h⟩
            · exact Or.inr ⟨x, List.mem_cons_of_mem _ hx, hxe⟩
        · rw [List.sorted_cons]
          refine ⟨?_, ihs.2⟩
          intro y hy
          obtain ⟨horig, _⟩ := ihs.1 y hy
          show st ≤ y.start
          rcases horig with h | ⟨x, hx, hxe⟩
          · rw [h]
            exact hge s (List.mem_cons_self _ _)
          · rw [hxe]
            exact hge x (List.mem_cons_of_mem _ hx)
      · have hen2 : st < s.stop :=
          lt_of_le_of_lt (hge s (List.mem_cons_self _ _))
            (hwf s (List.mem_cons_self _ _))
        have ihs := ih maxGap spk (texts ++ [pyStrip s.text]) st s.stop hen2
          (fun x hx => hwf x (List.mem_cons_of_mem _ hx))
          (fun x hx => hge x (List.mem_cons_of_mem _ hx)) htl
        constructor
        · intro m hm
          obtain ⟨horig, hwfm⟩ := ihs.1 m hm
          refine ⟨?_, hwfm⟩
          rcases horig with h | ⟨x, hx, hxe⟩
          · exact Or.inl h
          · exact Or.inr ⟨x, List.mem_cons_of_mem _ hx, hxe⟩
        · exact ihs.2

/-- Transcript consolidation of a chronological well-formed input emits a
start-sorted list of well-formed spans. -/
lemma consolidate_segments_wf (segs : List Seg) (maxGap : ℚ)
    (hwf : ∀ s ∈ segs, s.start < s.stop)
    (hsorted : List.Sorted segStartLE segs) :
    List.Sorted segStartLE (consolidate_segments segs maxGap) ∧
    ∀ m ∈ consolidate_segments segs maxGap, m.start < m.stop := by
  rcases segs with _ | ⟨s, rest⟩
  · exact ⟨List.sorted_nil, by simp [consolidate_segments]⟩
  · obtain ⟨hhd, htl⟩ := List.sorted_cons.mp hsorted
    have h := consolidateGo_props rest maxGap s.speaker [pyStrip s.text]
      s.start s.stop (hwf s (List.mem_cons_self _ _))
      (fun x hx => hwf x (List.mem_cons_of_mem _ hx)) hhd htl
    exact ⟨h.2, fun m hm => (h.1 m hm).2⟩

/-- C7 counterexample.  The claim requires only well-formed inputs (end
above start), but transcript consolidation of a well-formed input that is
not chronologically ordered can emit a span whose end is below its
start: two same-speaker utterances given in reverse order are merged and
the end time is overwritten backwards. -/
theorem consolidate_segments_unsorted_cex :
    (∀ s ∈ ([⟨"x", 5, 6, "A"⟩, ⟨"y", 0, 1, "A"⟩] : List Seg),
      s.start < s.stop) ∧
    ∃ m ∈ consolidate_segments [⟨"x", 5, 6, "A"⟩, ⟨"y", 0, 1, "A"⟩] 3,
      m.stop < m.start := by
  constructor
  · intro s hs
    rcases List.mem_cons.mp hs with rfl | hs2
    · norm_num
    · rcases List.mem_cons.mp hs2 with rfl | hs3
      · norm_num
      · simp at hs3
  · have he : consolidate_segments [⟨"x", 5, 6, "A"⟩, ⟨"y", 0, 1, "A"⟩] 3 =
        [⟨"x y", 5, 1, "A"⟩] := by
      norm_num [consolidate_segments, consolidateGo, pyStrip]
      decide
    refine ⟨⟨"x y", 5, 1, "A"⟩, ?_, by norm_num⟩
    rw [he]
    exact List.mem_singleton.mpr rfl

/-- C7 (amended): with well-formed input spans, the diarization fragment
merge never inverts chronological order nor emits a span with end below
start; the same holds for transcript consolidation provided its input is
additionally chronologically ordered (as the pipeline guarantees), the
hypothesis the unsorted counterexample forces. -/
theorem merge_passes_preserve_order_and_wf :
    (∀ segs : List DiarSeg, (∀ s ∈ segs, s.start < s.stop) →
      List.Sorted diarStartLE (merge_continuous_fragments segs) ∧
      ∀ m ∈ merge_continuous_fragments segs, m.start < m.stop) ∧
    (∀ (segs : List Seg) (maxGap : ℚ), (∀ s ∈ segs, s.start < s.stop) →
      List.Sorted segStartLE segs →
      List.Sorted segStartLE (consolidate_segments segs maxGap) ∧
      ∀ m ∈ consolidate_segments segs maxGap, m.start < m.stop) :=
  ⟨merge_continuous_fragments_wf, consolidate_segments_wf⟩

/-- C7 witness: both merge passes applied to concrete well-formed
(and, for consolidation, chronological) inputs, including overlapping
same-speaker diarization fragments. -/
theorem merge_passes_preserve_order_and_wf_witness :
    (List.Sorted diarStartLE
        (merge_continuous_fragments [⟨"A", 0, 10⟩, ⟨"A", 1, 2⟩]) ∧
      ∀ m ∈ merge_continuous_fragments [⟨"A", 0, 10⟩, ⟨"A", 1, 2⟩],
        m.start < m.stop) ∧
    (List.Sorted segStartLE
        (consolidate_segments [⟨"hi", 0, 1, "A"⟩, ⟨"yo", 2, 3, "B"⟩] 3) ∧
      ∀ m ∈ consolidate_segments [⟨"hi", 0, 1, "A"⟩, ⟨"yo", 2, 3, "B"⟩] 3,
        m.start < m.stop) :=
  ⟨merge_passes_preserve_order_and_wf.1 [⟨"A", 0, 10⟩, ⟨"A", 1, 2⟩]
    (by
      intro s hs
      rcases List.mem_cons.mp hs with rfl | hs2
      · norm_num
      · rcases List.mem_cons.mp hs2 with rfl | hs3
        · norm_num
        · simp at hs3),
   merge_passes_preserve_order_and_wf.2 [⟨"hi", 0, 1, "A"⟩, ⟨"yo", 2, 3, "B"⟩] 3
    (by
      intro s hs
      rcases List.mem_cons.mp hs with rfl | hs2
      · norm_num
      · rcases List.mem_cons.mp hs2 with rfl | hs3
        · norm_num
        · simp at hs3)
    (by norm_num [List.sorted_cons, segStartLE])⟩

/- ---------------------------------------------------------------------
C6 : transcript consolidation rule
--------------------------------------------------------------------- -/

/-- Reference consolidation loop, following the claim: start a new
utterance exactly when the speaker differs or the gap since the current
utterance end exceeds max_gap; otherwise append the segment text
(space-joined) and extend the end. -/
def claimConsolidateGo (maxGap : ℚ) (spk : String) (texts : List String)
    (st en : ℚ) : List Seg → List Seg
  | [] => [{ text := String.intercalate " " texts, start := st, stop := en,
             speaker := spk }]
  | s :: rest =>
      if s.speaker ≠ spk ∨ maxGap < s.start - en then
        { text := String.intercalate " " texts, start := st, stop := en,
          speaker := spk }
          :: claimConsolidateGo maxGap s.speaker [s.text] s.start s.stop rest
      else claimConsolidateGo maxGap spk (texts ++ [s.text]) st s.stop rest

/-- Reference consolidation from the claim, over attributed segments. -/
def claimConsolidate (segments : List Seg) (maxGap : ℚ) : List Seg :=
  match segments with
  | [] => []
  | s :: rest => claimConsolidateGo maxGap s.speaker [s.text] s.start s.stop rest

lemma consolidateGo_eq_claim :
    ∀ (rest : List Seg) (maxGap : ℚ) (spk : String) (texts : List String)
      (st en : ℚ), (∀ x ∈ rest, pyStrip x.text = x.text) →
      consolidateGo maxGap spk texts st en rest =
        claimConsolidateGo maxGap spk texts st en rest := by
  intro rest
  induction rest with
  | nil => intro maxGap spk texts st en _; rfl
  | cons s rest2 ih =>
      intro maxGap spk texts st en htrim
      rw [consolidateGo, claimConsolidateGo,
        htrim s (List.mem_cons_self _ _)]
      split_ifs with hcond
      · rw [ih maxGap s.speaker [s.text] s.start s.stop
          (fun x hx => htrim x (List.mem_cons_of_mem _ hx))]
      · rw [ih maxGap spk (texts ++ [s.text]) st s.stop
          (fun x hx => htrim x (List.mem_cons_of_mem _ hx))]

/-- C6: over attributed segments (whose texts are already stripped, as
the attributor guarantees) in chronological order, consolidate_segments
computes exactly the reference rule: a new utterance starts exactly on a
speaker change or a gap above max_gap, and otherwise the text is appended
space-joined and the end extended.  The concrete conjuncts check the two
examples: two same-speaker segments within the gap consolidate into one
utterance, and an interposed segment of another speaker prevents the
merge even within the gap. -/
theorem consolidate_segments_rule :
    (∀ (segs : List Seg) (maxGap : ℚ),
      (∀ s ∈ segs, pyStrip s.text = s.text) →
      List.Sorted segStartLE segs →
      consolidate_segments segs maxGap = claimConsolidate segs maxGap) ∧
    consolidate_segments [⟨"hi", 0, 1, "A"⟩, ⟨"there", 6 / 5, 2, "A"⟩] 3 =
      [⟨"hi there", 0, 2, "A"⟩] ∧
    consolidate_segments
        [⟨"hi", 0, 1, "A"⟩, ⟨"mid", 11 / 10, 6 / 5, "B"⟩,
         ⟨"there", 6 / 5, 2, "A"⟩] 3 =
      [⟨"hi", 0, 1, "A"⟩, ⟨"mid", 11 / 10, 6 / 5, "B"⟩,
       ⟨"there", 6 / 5, 2, "A"⟩] := by
  refine ⟨?_, ?_, ?_⟩
  · intro segs maxGap htrim _
    rcases segs with _ | ⟨s, rest⟩
    · rfl
    · rw [consolidate_segments, claimConsolidate,
        htrim s (List.mem_cons_self _ _)]
      exact consolidateGo_eq_claim rest maxGap s.speaker [s.text] s.start s.stop
        (fun x hx => htrim x (List.mem_cons_of_mem _ hx))
  · norm_num [consolidate_segments, consolidateGo, pyStrip]
    decide
  · have hBA : ("B" : String) ≠ "A" := by decide
    have hAB : ("A" : String) ≠ "B" := by decide
    norm_num [consolidate_segments, consolidateGo, pyStrip, hBA, hAB]
    decide

/-- C6 witness: the consolidation rule applied to the two-segment
same-speaker example, with its hypotheses discharged. -/
theorem consolidate_segments_rule_witness :
    consolidate_segments [⟨"hi", 0, 1, "A"⟩, ⟨"there", 6 / 5, 2, "A"⟩] 3 =
      claimConsolidate [⟨"hi", 0, 1, "A"⟩, ⟨"there", 6 / 5, 2, "A"⟩] 3 :=
  consolidate_segments_rule.1 [⟨"hi", 0, 1, "A"⟩, ⟨"there", 6 / 5, 2, "A"⟩] 3
    (by
      intro s hs
      rcases List.mem_cons.mp hs with rfl | hs2
      · decide
      · rcases List.mem_cons.mp hs2 with rfl | hs3
        · decide
        · simp at hs3)
    (by norm_num [List.sorted_cons, segStartLE])

/- ---------------------------------------------------------------------
C9 : recombination fallback (corrected)
--------------------------------------------------------------------- -/

/-- C9 counterexample.  The claim states that the pydub fallback raises
an error rather than returning normally when no valid non-empty parts
remain.  On the input consisting of a single zero-length part, the source
prints its no-valid-audio message and returns None: the embedded function
yields a normal (ok) result, not an error. -/
theorem combine_with_pydub_no_raise_cex :
    combine_with_pydub [some 0] = Except.ok PydubOutcome.noValidAudio := rfl

/-- C9 (amended): when the external ffmpeg concatenation fails over a
non-empty parts list, recombine_stems falls back to combine_with_pydub;
the fallback never raises, skips every zero-length part, and returns the
no-valid-audio outcome (a normal return with a loud printed error, not an
exception) exactly when no loadable part of positive length remains. -/
theorem recombine_stems_fallback_spec :
    ∀ parts : List (Option ℕ), parts ≠ [] →
      (∀ e : Unit, recombine_stems parts (Except.error e) =
        RecombineOutcome.viaPydub (combine_with_pydub parts)) ∧
      (combine_with_pydub parts).isOk = true ∧
      combine_with_pydub (some 0 :: parts) = combine_with_pydub parts ∧
      combine_with_pydub (none :: parts) = combine_with_pydub parts ∧
      (combine_with_pydub parts = Except.ok PydubOutcome.noValidAudio ↔
        ∀ p ∈ parts, p.getD 0 = 0) := by
  intro parts hne
  refine ⟨?_, ?_, rfl, rfl, ?_⟩
  · intro e
    rw [recombine_stems, if_neg]
    simp [List.isEmpty_iff, hne]
  · rw [combine_with_pydub]
    split_ifs <;> rfl
  · rw [combine_with_pydub]
    split_ifs with h0
    · simp only [Except.ok.injEq, true_iff]
      have := (addPart_foldl_eq_zero parts 0).mp h0
      exact this.2
    · constructor
      · intro h; exact absurd h (by simp)
      · intro hall
        exact absurd ((addPart_foldl_eq_zero parts 0).mpr ⟨rfl, hall⟩) h0

/-- C9 witness: the amended statement applied to the one-part list
containing a loadable five-millisecond part. -/
theorem recombine_stems_fallback_spec_witness :
    (∀ e : Unit, recombine_stems [some 5] (Except.error e) =
      RecombineOutcome.viaPydub (combine_with_pydub [some 5])) ∧
    (combine_with_pydub [some 5]).isOk = true ∧
    combine_with_pydub (some 0 :: [some 5]) = combine_with_pydub [some 5] ∧
    combine_with_pydub (none :: [some 5]) = combine_with_pydub [some 5] ∧
    (combine_with_pydub [some 5] = Except.ok PydubOutcome.noValidAudio ↔
      ∀ p ∈ [some 5], p.getD 0 = 0) :=
  recombine_stems_fallback_spec [some 5] (by decide)

/- ---------------------------------------------------------------------
C10 : attribution with an empty diarization set, and speaker provenance
--------------------------------------------------------------------- -/

/-- C10: with an empty diarization list, simple_speaker_mapping returns
the empty list (every chunk is silently dropped); and on any input, every
emitted segment carries a non-empty speaker id drawn from the input
diarization segments. -/
theorem simple_speaker_mapping_speaker_provenance :
    (∀ chunks : List WhisperChunk, simple_speaker_mapping chunks [] = []) ∧
    (∀ (chunks : List WhisperChunk) (segs : List DiarSeg) (m : Seg),
      m ∈ simple_speaker_mapping chunks segs →
      m.speaker ∈ segs.map DiarSeg.speaker ∧ m.speaker ≠ "") := by
  constructor
  · intro chunks
    rw [simple_speaker_mapping, List.filterMap_eq_nil_iff]
    intro c _
    rcases c with ⟨ts, txt⟩
    rcases ts with _ | ⟨_ | cs, _ | ce⟩ <;>
      simp [mapChunk, bestSpeakerFor_nil, falsySpeaker]
  · intro chunks segs m hm
    rw [simple_speaker_mapping] at hm
    rcases List.mem_filterMap.mp hm with ⟨c, _, hc⟩
    rcases c with ⟨ts, txt⟩
    rcases ts with _ | ⟨_ | cs, _ | ce⟩ <;> simp [mapChunk] at hc
    obtain ⟨h1, h2, h3⟩ := hc
    rcases h4 : bestSpeakerFor cs ce segs with _ | sp
    · rw [h4] at h3; simp at h3
    · rw [h4] at h3
      simp only [Option.some.injEq] at h3
      have hsp : m.speaker = sp := by rw [← h3]
      rcases bestSpeakerFor_mem cs ce segs sp h4 with ⟨d, hd, hds⟩
      have hne : sp ≠ "" := by
        rw [h4] at h2
        simpa [falsySpeaker] using h2
      constructor
      · rw [hsp, hds]
        exact List.mem_map_of_mem DiarSeg.speaker hd
      · rw [hsp]; exact hne

/-- C10 witness: a concrete chunk attributed against one diarization
segment; the emitted speaker is in the diarization speaker list and is
non-empty. -/
theorem simple_speaker_mapping_speaker_provenance_witness :
    (⟨"hi", 0, 1, "S1"⟩ : Seg).speaker ∈
      ([⟨"S1", 0, 1⟩] : List DiarSeg).map DiarSeg.speaker ∧
    (⟨"hi", 0, 1, "S1"⟩ : Seg).speaker ≠ "" :=
  simple_speaker_mapping_speaker_provenance.2
    [⟨some (some 0, some 1), "hi"⟩] [⟨"S1", 0, 1⟩] ⟨"hi", 0, 1, "S1"⟩
    (by
      norm_num [simple_speaker_mapping, mapChunk, bestSpeakerFor, overlapGo,
        fallbackGo, falsySpeaker, pyStrip, pyRound3, pyRoundInt, ratFloor]
      decide)

/- ---------------------------------------------------------------------
C3 : chunk reassembly shifts by the chunk offset and sorts by start
--------------------------------------------------------------------- -/

/-- C3: merge_chunk_outputs emits exactly the input segments with start
and end increased by the start offset of their chunk (a permutation of
the shifted concatenation), sorted ascending by absolute start; in
particular a chunk-relative segment from 10 to 12 in a chunk with offset
900 becomes the absolute segment from 910 to 912. -/
theorem merge_chunk_outputs_shifts_and_sorts :
    (∀ rs : List (ChunkInfo × List Seg),
      (merge_chunk_outputs rs).Perm
        (rs.flatMap (fun p => p.2.map (shiftSeg p.1.start_time))) ∧
      List.Sorted segStartLE (merge_chunk_outputs rs)) ∧
    merge_chunk_outputs [(⟨900, 1800, 1⟩, [⟨"t", 10, 12, "S"⟩])] =
      [⟨"t", 910, 912, "S"⟩] := by
  constructor
  · intro rs
    exact ⟨sortSegs_perm _, sortSegs_sorted _⟩
  · norm_num [merge_chunk_outputs, sortSegs, shiftSeg, List.insertionSort,
      List.orderedInsert]

end AudioPipe
